import Mathlib

/-!
Verification development for the Monte-Carlo PSF rasterizer of
`deeplens/monte_carlo.py` (functions `forward_integral` and
`assign_points_to_pixels`).  Machine reals are modelled by `ℚ` (exact
arithmetic); tensors by lists; Python runtime errors (`ZeroDivisionError`
at the `ps` computation when `ks = 1`, `IndexError` from out-of-bounds
`index_put_`) by `Except String`.
-/

namespace DeepLens

/-- A 2-d real vector (one sample point on the image plane). -/
abbrev V2 := ℚ × ℚ

/-- A 3-d real vector (ray origin or direction). -/
abbrev V3 := ℚ × ℚ × ℚ

/-- A `ks × ks` pixel grid, row major. -/
abbrev Grid := List (List ℚ)

/-- Modelled from the spec: the source imports `EPSILON` from
`deeplens.basics`, a file not among the provided sources.  The spec
describes it as a small positive global guard constant used for
divide-by-zero protection; we fix the customary value `1e-9`. -/
def EPSILON : ℚ := 1 / 1000000000

/-- PyTorch index validity for one axis of a size-`ks` dimension:
indices in `[-ks, ks-1]` are legal (negative ones wrap around). -/
def idxOk (ks : ℕ) (i : ℤ) : Bool := (-(ks : ℤ) ≤ i) && (i < (ks : ℤ))

/-- Resolve a possibly negative PyTorch index to its physical position. -/
def wrapIdx (ks : ℕ) (i : ℤ) : ℕ := (if i < 0 then i + (ks : ℤ) else i).toNat

/-- Add `v` to entry `j` of a row (out-of-range `j` leaves the row as is;
it is only reached behind the bounds check). -/
def rowAdd (r : List ℚ) (j : ℕ) (v : ℚ) : List ℚ := r.set j (r.getD j 0 + v)

/-- Add `v` to entry `(i, j)` of a grid. -/
def gridAdd (g : Grid) (i j : ℕ) (v : ℚ) : Grid := g.set i (rowAdd (g.getD i []) j v)

/-- `grid.index_put_(indices, values, accumulate=True)`: add each value at
its index pair, raising `IndexError` on an out-of-bounds index. -/
def index_put (ks : ℕ) (g : Grid) : List ((ℤ × ℤ) × ℚ) → Except String Grid
  | [] => .ok g
  | (ij, v) :: rest =>
    if idxOk ks ij.1 && idxOk ks ij.2 then
      index_put ks (gridAdd g (wrapIdx ks ij.1) (wrapIdx ks ij.2) v) rest
    else .error "IndexError"

/-- `torch.zeros(ks, ks)`. -/
def zerosGrid (ks : ℕ) : Grid := List.replicate ks (List.replicate ks 0)

/-- Lines 83-85: map a point `(px, py)` to normalized `(row, col)`
coordinates; the row axis comes from `y` and is flipped vertically. -/
def normalizePoint (x_range y_range : ℚ × ℚ) (p : V2) : V2 :=
  ((p.2 - y_range.2) / (y_range.1 - y_range.2),
   (p.1 - x_range.1) / (x_range.2 - x_range.1))

/-- Lines 60-121 of `monte_carlo.py`, incoherent path (`coherent=False`,
the mode every `forward_integral` call uses).  Parameter order follows
the source minus `coherent`; `phase`, `d`, `obliq` and `wvln` are
accepted but never used by this path, exactly as in the source.  The
complete function, coherent branch included, is modelled by
`assign_points_to_pixels_full` below; `assign_full_incoherent_agrees`
proves the two agree at `coherent=False`. -/
def assign_points_to_pixels (points : List V2) (ks : ℕ) (x_range y_range : ℚ × ℚ)
    (ra : List ℚ) (interpolate : Bool) (phase : List ℚ) (d : Option ℚ)
    (obliq : List ℚ) (wvln : ℚ) : Except String Grid :=
  -- line 80: `ps = (x_max - x_min) / (ks - 1)` raises ZeroDivisionError at ks = 1
  if ks = 1 then .error "ZeroDivisionError" else
  let pn := points.map (normalizePoint x_range y_range)
  let pif := pn.map (fun p => (p.1 * ((ks : ℚ) - 1), p.2 * ((ks : ℚ) - 1)))
  if interpolate then
    let w_b := pif.map (fun p => p.1 - (⌊p.1⌋ : ℚ))
    let w_r := pif.map (fun p => p.2 - (⌊p.2⌋ : ℚ))
    let tl := pif.map (fun p => (⌊p.1⌋, ⌊p.2⌋))
    let tr := pif.map (fun p => (⌊p.1⌋, ⌊p.2 + 1⌋))
    let bl := pif.map (fun p => (⌊p.1 + 1⌋, ⌊p.2⌋))
    let br := tl.map (fun ij => (ij.1 + 1, ij.2 + 1))
    do
      let g1 ← index_put ks (zerosGrid ks)
        (tl.zip (List.zipWith3 (fun b r a => (1 - b) * (1 - r) * a) w_b w_r ra))
      let g2 ← index_put ks g1
        (tr.zip (List.zipWith3 (fun b r a => (1 - b) * r * a) w_b w_r ra))
      let g3 ← index_put ks g2
        (bl.zip (List.zipWith3 (fun b r a => b * (1 - r) * a) w_b w_r ra))
      index_put ks g3
        (br.zip (List.zipWith3 (fun b r a => b * r * a) w_b w_r ra))
  else
    let tl := pif.map (fun p => (⌊p.1⌋, ⌊p.2⌋))
    index_put ks (zerosGrid ks) (tl.zip ra)

/-- A `ks × ks` pixel grid of complex amplitudes, row major. -/
abbrev CGrid := List (List ℂ)

/-- Elementwise combination of four equal-length tensors. -/
def zipWith4 {α β γ δ ε : Type} (f : α → β → γ → δ → ε) :
    List α → List β → List γ → List δ → List ε
  | a :: as, b :: bs, c :: cs, x :: xs => f a b c x :: zipWith4 f as bs cs xs
  | _, _, _, _ => []

/-- Embed a real row into the complex plane. -/
noncomputable def castRow (r : List ℚ) : List ℂ := r.map (fun v : ℚ => (v : ℂ))

/-- Embed a real grid into the complex plane. -/
noncomputable def castGrid (g : Grid) : CGrid := g.map castRow

/-- Complex counterpart of `rowAdd`. -/
noncomputable def rowAddC (r : List ℂ) (j : ℕ) (v : ℂ) : List ℂ :=
  r.set j (r.getD j 0 + v)

/-- Complex counterpart of `gridAdd`. -/
noncomputable def gridAddC (g : CGrid) (i j : ℕ) (v : ℂ) : CGrid :=
  g.set i (rowAddC (g.getD i []) j v)

/-- `index_put_` with accumulate on a complex grid (line 101-105 uses the
same indexing semantics as the real-valued calls). -/
noncomputable def index_putC (ks : ℕ) (g : CGrid) :
    List ((ℤ × ℤ) × ℂ) → Except String CGrid
  | [] => .ok g
  | (ij, v) :: rest =>
    if idxOk ks ij.1 && idxOk ks ij.2 then
      index_putC ks (gridAddC g (wrapIdx ks ij.1) (wrapIdx ks ij.2) v) rest
    else .error "IndexError"

/-- `torch.zeros(ks, ks) + 0j` (line 101). -/
def zerosCGrid (ks : ℕ) : CGrid := List.replicate ks (List.replicate ks 0)

/-- Lines 60-121 of `monte_carlo.py` in full, the coherent branch (lines
99-105) included.  Grid entries live in `ℂ`: the incoherent paths
accumulate real values (embedded by the canonical coercion, since the
source returns a real tensor there), and the coherent path accumulates
`ra * exp(1j * phase)` exactly as at lines 102-105.  As in the source,
the non-interpolated branch ignores `coherent`, and `obliq`, `d` and
`wvln` are accepted but never used. -/
noncomputable def assign_points_to_pixels_full (points : List V2) (ks : ℕ)
    (x_range y_range : ℚ × ℚ) (ra : List ℚ) (interpolate coherent : Bool)
    (phase : List ℚ) (d : Option ℚ) (obliq : List ℚ) (wvln : ℚ) :
    Except String CGrid :=
  -- line 80: `ps = (x_max - x_min) / (ks - 1)` raises ZeroDivisionError at ks = 1
  if ks = 1 then .error "ZeroDivisionError" else
  let pn := points.map (normalizePoint x_range y_range)
  let pif := pn.map (fun p => (p.1 * ((ks : ℚ) - 1), p.2 * ((ks : ℚ) - 1)))
  if interpolate then
    let w_b := pif.map (fun p => p.1 - (⌊p.1⌋ : ℚ))
    let w_r := pif.map (fun p => p.2 - (⌊p.2⌋ : ℚ))
    let tl := pif.map (fun p => (⌊p.1⌋, ⌊p.2⌋))
    let tr := pif.map (fun p => (⌊p.1⌋, ⌊p.2 + 1⌋))
    let bl := pif.map (fun p => (⌊p.1 + 1⌋, ⌊p.2⌋))
    let br := tl.map (fun ij => (ij.1 + 1, ij.2 + 1))
    if coherent then
      do
        let g1 ← index_putC ks (zerosCGrid ks)
          (tl.zip (zipWith4 (fun (b r a φ : ℚ) =>
            (((1 - b) * (1 - r) * a : ℚ) : ℂ) * Complex.exp (Complex.I * (φ : ℂ)))
            w_b w_r ra phase))
        let g2 ← index_putC ks g1
          (tr.zip (zipWith4 (fun (b r a φ : ℚ) =>
            (((1 - b) * r * a : ℚ) : ℂ) * Complex.exp (Complex.I * (φ : ℂ)))
            w_b w_r ra phase))
        let g3 ← index_putC ks g2
          (bl.zip (zipWith4 (fun (b r a φ : ℚ) =>
            ((b * (1 - r) * a : ℚ) : ℂ) * Complex.exp (Complex.I * (φ : ℂ)))
            w_b w_r ra phase))
        index_putC ks g3
          (br.zip (zipWith4 (fun (b r a φ : ℚ) =>
            ((b * r * a : ℚ) : ℂ) * Complex.exp (Complex.I * (φ : ℂ)))
            w_b w_r ra phase))
    else
      do
        let g1 ← index_putC ks (zerosCGrid ks)
          (tl.zip (List.zipWith3 (fun (b r a : ℚ) => (((1 - b) * (1 - r) * a : ℚ) : ℂ)) w_b w_r ra))
        let g2 ← index_putC ks g1
          (tr.zip (List.zipWith3 (fun (b r a : ℚ) => (((1 - b) * r * a : ℚ) : ℂ)) w_b w_r ra))
        let g3 ← index_putC ks g2
          (bl.zip (List.zipWith3 (fun (b r a : ℚ) => ((b * (1 - r) * a : ℚ) : ℂ)) w_b w_r ra))
        index_putC ks g3
          (br.zip (List.zipWith3 (fun (b r a : ℚ) => ((b * r * a : ℚ) : ℂ)) w_b w_r ra))
  else
    let tl := pif.map (fun p => (⌊p.1⌋, ⌊p.2⌋))
    index_putC ks (zerosCGrid ks) (tl.zip (ra.map (fun a : ℚ => (a : ℂ))))

/-- A single-point ray bundle: `o`, `d` of shape `[spp, 3]`, `ra` of
shape `[spp]`. -/
structure Ray1 where
  o : List V3
  d : List V3
  ra : List ℚ

/-- Line 24: `points = - ray.o[..., :2]`. -/
def neg2 (v : V3) : V2 := (-v.1, -v.2.1)

/-- The extracted, sign-flipped image-plane points of a bundle. -/
def fwdPoints (r : Ray1) : List V2 := r.o.map neg2

/-- Line 25: `psf_range = [(-ks/2 + 0.5) * ps, (ks/2 - 0.5) * ps]`. -/
def psf_range (ps : ℚ) (ks : ℕ) : ℚ × ℚ :=
  ((-(ks : ℚ) / 2 + 1 / 2) * ps, ((ks : ℚ) / 2 - 1 / 2) * ps)

/-- Lines 28-34: the PSF center, either the `EPSILON`-guarded weighted
centroid of the points or the externally supplied reference. -/
def fwdCenter (r : Ray1) (pointc_ref : Option V2) : V2 :=
  match pointc_ref with
  | some c => c
  | none =>
    let den := r.ra.sum + EPSILON
    ((List.zipWith (fun p a => p.1 * a) (fwdPoints r) r.ra).sum / den,
     (List.zipWith (fun p a => p.2 * a) (fwdPoints r) r.ra).sum / den)

/-- Lines 31/34: `points_shift = points - center`. -/
def fwdShift (r : Ray1) (pointc_ref : Option V2) : List V2 :=
  let c := fwdCenter r pointc_ref
  (fwdPoints r).map (fun p => (p.1 - c.1, p.2 - c.2))

/-- Line 37: the masked weights
`ra = ray.ra * (|shift_x| < bound) * (|shift_y| < bound)` with
`bound = psf_range[1] - 0.01 * ps`. -/
def fwdRa (r : Ray1) (ps : ℚ) (ks : ℕ) (pointc_ref : Option V2) : List ℚ :=
  let bound := (psf_range ps ks).2 - ps / 100
  List.zipWith
    (fun a s => a * (if |s.1| < bound then (1 : ℚ) else 0)
                  * (if |s.2| < bound then (1 : ℚ) else 0))
    r.ra (fwdShift r pointc_ref)

/-- Line 38: `points_shift *= ra` — the positions handed to the Splatter
are the shifted points scaled by their own masked weights. -/
def fwdPassed (r : Ray1) (ps : ℚ) (ks : ℕ) (pointc_ref : Option V2) : List V2 :=
  List.zipWith (fun s a => (s.1 * a, s.2 * a))
    (fwdShift r pointc_ref) (fwdRa r ps ks pointc_ref)

/-- Line 42: `obliq = ray.d[:, 2] ** 2` (passed through, never used). -/
def obliqList (r : Ray1) : List ℚ := r.d.map (fun v => v.2.2 ^ 2)

/-- Lines 9-57, single-point layout.  Note the call at line 43 passes no
`interpolate` argument, so the Splatter runs with its own default
`interpolate=True` regardless of this function's `interpolate` flag. -/
def forward_integral (r : Ray1) (ps : ℚ) (ks : ℕ) (pointc_ref : Option V2)
    (interpolate : Bool) : Except String Grid :=
  assign_points_to_pixels (fwdPassed r ps ks pointc_ref) ks
    (psf_range ps ks) (psf_range ps ks) (fwdRa r ps ks pointc_ref)
    true [] none (obliqList r) (589 / 1000)

/-- The sum of all entries of a grid. -/
def gridSum (g : Grid) : ℚ := (g.map List.sum).sum

/-- Every entry of the grid is non-negative. -/
def gridNonneg (g : Grid) : Prop := ∀ row ∈ g, ∀ v ∈ row, 0 ≤ v

/-- A grid has `ks` rows of `ks` entries each. -/
def wfGrid (ks : ℕ) (g : Grid) : Prop := g.length = ks ∧ ∀ row ∈ g, row.length = ks

/-- An index pair lies inside the `ks × ks` grid (no negative wrapping). -/
def inGrid (ks : ℕ) (ij : ℤ × ℤ) : Prop :=
  0 ≤ ij.1 ∧ ij.1 < (ks : ℤ) ∧ 0 ≤ ij.2 ∧ ij.2 < (ks : ℤ)

/-- The fractional pixel-index pair of a point under the Splatter's
normalization, i.e. `points_normalized * (ks - 1)` of lines 89/115. -/
def pixelIndexFloat (ks : ℕ) (x_range y_range : ℚ × ℚ) (p : V2) : V2 :=
  ((normalizePoint x_range y_range p).1 * ((ks : ℚ) - 1),
   (normalizePoint x_range y_range p).2 * ((ks : ℚ) - 1))

/-- A ray bundle extended by one extra sample. -/
def appendSample (r : Ray1) (o0 d0 : V3) (a0 : ℚ) : Ray1 :=
  ⟨r.o ++ [o0], r.d ++ [d0], r.ra ++ [a0]⟩

/-- A multi-point ray bundle: `o`, `d` of shape `[spp, N, 3]` and `ra`
of shape `[spp, N]`; the inner (point) axis is a function out of
`Fin N`, which keeps the tensor rectangular. -/
structure RayN (N : ℕ) where
  o : List (Fin N → V3)
  d : List (Fin N → V3)
  ra : List (Fin N → ℚ)

/-- `tensor.sum(0)`: pointwise sum of the rows of a `[spp, N]` tensor. -/
def sumFn {N : ℕ} (l : List (Fin N → ℚ)) : Fin N → ℚ :=
  l.foldr (fun row acc => fun i => row i + acc i) (fun _ => 0)

/-- Column `i` of a `[spp, N]`-shaped list of rows. -/
def colOf {N : ℕ} {α : Type} (l : List (Fin N → α)) (i : Fin N) : List α :=
  l.map (fun row => row i)

/-- Line 24 for the multi-point layout. -/
def fwdPointsN {N : ℕ} (r : RayN N) : List (Fin N → V2) :=
  r.o.map (fun row => fun i => neg2 (row i))

/-- Lines 28-34 for the multi-point layout: per-point centers. -/
def fwdCenterN {N : ℕ} (r : RayN N) (pointc_ref : Option V2) : Fin N → V2 :=
  match pointc_ref with
  | some c => fun _ => c
  | none =>
    let den := fun i => sumFn r.ra i + EPSILON
    let numx := sumFn (List.zipWith (fun prow arow => fun i => (prow i).1 * arow i)
      (fwdPointsN r) r.ra)
    let numy := sumFn (List.zipWith (fun prow arow => fun i => (prow i).2 * arow i)
      (fwdPointsN r) r.ra)
    fun i => (numx i / den i, numy i / den i)

/-- Lines 31/34 for the multi-point layout. -/
def fwdShiftN {N : ℕ} (r : RayN N) (pointc_ref : Option V2) : List (Fin N → V2) :=
  let c := fwdCenterN r pointc_ref
  (fwdPointsN r).map (fun prow => fun i => ((prow i).1 - (c i).1, (prow i).2 - (c i).2))

/-- Line 37 for the multi-point layout. -/
def fwdRaN {N : ℕ} (r : RayN N) (ps : ℚ) (ks : ℕ) (pointc_ref : Option V2) :
    List (Fin N → ℚ) :=
  let bound := (psf_range ps ks).2 - ps / 100
  List.zipWith
    (fun arow srow => fun i =>
      arow i * (if |(srow i).1| < bound then (1 : ℚ) else 0)
             * (if |(srow i).2| < bound then (1 : ℚ) else 0))
    r.ra (fwdShiftN r pointc_ref)

/-- Line 38 for the multi-point layout. -/
def fwdPassedN {N : ℕ} (r : RayN N) (ps : ℚ) (ks : ℕ) (pointc_ref : Option V2) :
    List (Fin N → V2) :=
  List.zipWith (fun srow arow => fun i => ((srow i).1 * arow i, (srow i).2 * arow i))
    (fwdShiftN r pointc_ref) (fwdRaN r ps ks pointc_ref)

/-- Sequencing of the per-point Splatter results: the loop of lines
46-53 aborts at the first error, otherwise collects the grids in order
(line 55, `torch.stack`). -/
def exceptList {α : Type} : List (Except String α) → Except String (List α)
  | [] => .ok []
  | e :: rest => do
    let g ← e
    let gs ← exceptList rest
    .ok (g :: gs)

/-- Lines 45-55: the multi-point path of `forward_integral` — slice out
each point's samples and weights, splat each independently, stack in
input order. -/
def forward_integralN {N : ℕ} (r : RayN N) (ps : ℚ) (ks : ℕ)
    (pointc_ref : Option V2) (interpolate : Bool) : Except String (List Grid) :=
  exceptList ((List.finRange N).map (fun i =>
    assign_points_to_pixels (colOf (fwdPassedN r ps ks pointc_ref) i) ks
      (psf_range ps ks) (psf_range ps ks) (colOf (fwdRaN r ps ks pointc_ref) i)
      true [] none (r.d.map (fun row => ((row i).2.2) ^ 2)) (589 / 1000)))

/-- The single-point bundle obtained by slicing point `i` out of a
multi-point bundle. -/
def pointAt {N : ℕ} (r : RayN N) (i : Fin N) : Ray1 :=
  ⟨r.o.map (fun row => row i), r.d.map (fun row => row i), r.ra.map (fun row => row i)⟩

/-- Scenario bundle of the spec: `spp = 4`, weights 1, samples whose
image-plane points are the four interior cell centers of a `4 × 4`,
`ps = 1` grid. -/
def scenarioRay : Ray1 :=
  ⟨[(-1/2, -1/2, 0), (-1/2, 1/2, 0), (1/2, -1/2, 0), (1/2, 1/2, 0)],
   [(0, 0, 1), (0, 0, 1), (0, 0, 1), (0, 0, 1)],
   [1, 1, 1, 1]⟩

/-- A one-sample bundle whose point sits strictly between lattice
points of the `ks = 4`, `ps = 1` window (shift `(1/4, 1/4)` from the
reference center `(0,0)`). -/
def offGridRay : Ray1 := ⟨[(-1/4, -1/4, 0)], [(0, 0, 1)], [1]⟩

/-- Like `offGridRay` but with fractional weight `1/2`. -/
def halfWeightRay : Ray1 := ⟨[(-1/4, -1/4, 0)], [(0, 0, 1)], [1/2]⟩

/-! ## Helper lemmas -/

theorem idxOk_zero (i : ℤ) : idxOk 0 i = false := by
  simp only [idxOk, Nat.cast_zero, neg_zero, Bool.and_eq_false_imp, decide_eq_true_eq,
    decide_eq_false_iff_not, not_lt]
  omega

theorem index_put_zero_cons (g : Grid) (x : (ℤ × ℤ) × ℚ) (rest : List ((ℤ × ℤ) × ℚ)) :
    index_put 0 g (x :: rest) = .error "IndexError" := by
  obtain ⟨⟨i, j⟩, v⟩ := x
  simp [index_put, idxOk_zero]

theorem scenario_passed_eval :
    fwdPassed scenarioRay 1 4 none = [(1/2, 1/2), (1/2, -1/2), (-1/2, 1/2), (-1/2, -1/2)]
    ∧ fwdRa scenarioRay 1 4 none = [1, 1, 1, 1] := by
  constructor <;>
  · simp only [fwdPassed, fwdRa, fwdShift, fwdCenter, fwdPoints, scenarioRay, neg2, psf_range,
      List.map_cons, List.map_nil, List.zipWith_cons_cons, List.zipWith_nil_right,
      List.sum_cons, List.sum_nil, EPSILON, abs_lt]
    norm_num

theorem offgrid_passed_eval :
    fwdPassed offGridRay 1 4 (some (0, 0)) = [(1/4, 1/4)]
    ∧ fwdRa offGridRay 1 4 (some (0, 0)) = [1] := by
  constructor <;>
  · simp only [fwdPassed, fwdRa, fwdShift, fwdCenter, fwdPoints, offGridRay, neg2, psf_range,
      List.map_cons, List.map_nil, List.zipWith_cons_cons, List.zipWith_nil_right,
      List.sum_cons, List.sum_nil, abs_lt]
    norm_num

theorem exists_of_mem_zipWith {α β γ : Type} {f : α → β → γ} {x : γ} :
    ∀ {l1 : List α} {l2 : List β}, x ∈ List.zipWith f l1 l2 →
      ∃ a b, a ∈ l1 ∧ b ∈ l2 ∧ x = f a b := by
  intro l1
  induction l1 with
  | nil => intro l2 h; simp at h
  | cons a t ih =>
    intro l2 h
    cases l2 with
    | nil => simp at h
    | cons b t2 =>
      rw [List.zipWith_cons_cons] at h
      rcases List.mem_cons.1 h with h | h
      · exact ⟨a, b, List.mem_cons_self _ _, List.mem_cons_self _ _, h⟩
      · obtain ⟨a2, b2, ha, hb, hx⟩ := ih h
        exact ⟨a2, b2, List.mem_cons_of_mem _ ha, List.mem_cons_of_mem _ hb, hx⟩

theorem rowAdd_sum (r : List ℚ) (j : ℕ) (v : ℚ) (hj : j < r.length) :
    (rowAdd r j v).sum = r.sum + v := by
  induction r generalizing j with
  | nil => simp at hj
  | cons h t ih =>
    cases j with
    | zero => simp [rowAdd, List.getD_cons_zero]; ring
    | succ n =>
      have ht := ih n (by simpa using hj)
      simp only [rowAdd, List.set_cons_succ, List.getD_cons_succ, List.sum_cons] at ht ⊢
      rw [ht]; ring

theorem map_sum_set (g : List (List ℚ)) (i : ℕ) (r : List ℚ) (hi : i < g.length) :
    ((g.set i r).map List.sum).sum = (g.map List.sum).sum - (g.getD i []).sum + r.sum := by
  induction g generalizing i with
  | nil => simp at hi
  | cons h t ih =>
    cases i with
    | zero => simp [List.getD_cons_zero]; ring
    | succ n =>
      have ht := ih n (by simpa using hi)
      simp only [List.set_cons_succ, List.getD_cons_succ, List.map_cons, List.sum_cons, ht]
      ring

theorem row_length_of_wf {ks : ℕ} {g : Grid} (hw : wfGrid ks g) {i : ℕ} (hi : i < ks) :
    (g.getD i []).length = ks := by
  have hig : i < g.length := by rw [hw.1]; exact hi
  rw [List.getD_eq_getElem _ _ hig]
  exact hw.2 _ (List.getElem_mem hig)

theorem gridSum_gridAdd {ks : ℕ} {g : Grid} (hw : wfGrid ks g) {i j : ℕ}
    (hi : i < ks) (hj : j < ks) (v : ℚ) :
    gridSum (gridAdd g i j v) = gridSum g + v := by
  have hig : i < g.length := by rw [hw.1]; exact hi
  have hjr : j < (g.getD i []).length := by rw [row_length_of_wf hw hi]; exact hj
  simp only [gridSum, gridAdd, map_sum_set _ _ _ hig, rowAdd_sum _ _ _ hjr]
  ring

theorem wfGrid_gridAdd {ks : ℕ} {g : Grid} (hw : wfGrid ks g) {i j : ℕ}
    (hi : i < ks) (v : ℚ) : wfGrid ks (gridAdd g i j v) := by
  refine ⟨by simpa [gridAdd] using hw.1, ?_⟩
  intro row hrow
  rcases List.mem_or_eq_of_mem_set hrow with h | h
  · exact hw.2 row h
  · subst h
    simp only [rowAdd, List.length_set]
    exact row_length_of_wf hw hi

theorem getD_getD_nonneg {g : Grid} (hg : gridNonneg g) (i j : ℕ) :
    0 ≤ (g.getD i []).getD j 0 := by
  by_cases hig : i < g.length
  · have hrow : g.getD i [] ∈ g := by
      rw [List.getD_eq_getElem _ _ hig]
      exact List.getElem_mem hig
    by_cases hjr : j < (g.getD i []).length
    · exact hg _ hrow _ (by rw [List.getD_eq_getElem _ _ hjr]; exact List.getElem_mem hjr)
    · rw [List.getD_eq_default _ _ (show (g.getD i []).length ≤ j by omega)]
  · rw [List.getD_eq_default _ _ (show g.length ≤ i by omega)]
    simp

theorem gridNonneg_gridAdd {g : Grid} (hg : gridNonneg g) {i j : ℕ} {v : ℚ}
    (hv : 0 ≤ v) : gridNonneg (gridAdd g i j v) := by
  intro row hrow
  rcases List.mem_or_eq_of_mem_set hrow with h | h
  · exact hg row h
  · subst h
    intro x hx
    rcases List.mem_or_eq_of_mem_set hx with h2 | h2
    · by_cases hig : i < g.length
      · exact hg _ (by rw [List.getD_eq_getElem _ _ hig]; exact List.getElem_mem hig) x h2
      · rw [List.getD_eq_default _ _ (show g.length ≤ i by omega)] at h2
        simp at h2
    · subst h2
      exact add_nonneg (getD_getD_nonneg hg i j) hv

theorem index_put_master (ks : ℕ) :
    ∀ (l : List ((ℤ × ℤ) × ℚ)) (g : Grid),
    wfGrid ks g → (∀ x ∈ l, inGrid ks x.1) →
    ∃ g2, index_put ks g l = .ok g2 ∧ wfGrid ks g2
      ∧ gridSum g2 = gridSum g + (l.map Prod.snd).sum
      ∧ (gridNonneg g → (∀ x ∈ l, 0 ≤ x.2) → gridNonneg g2) := by
  intro l
  induction l with
  | nil =>
    intro g hw _
    exact ⟨g, rfl, hw, by simp, fun h _ => h⟩
  | cons x rest ih =>
    intro g hw hin
    obtain ⟨⟨i, j⟩, v⟩ := x
    have hx := hin _ (List.mem_cons_self _ _)
    simp [inGrid] at hx
    obtain ⟨hi0, hik, hj0, hjk⟩ := hx
    have hok : (idxOk ks i && idxOk ks j) = true := by
      simp only [idxOk, Bool.and_eq_true, decide_eq_true_eq]
      omega
    have hwi : wrapIdx ks i = i.toNat := by simp only [wrapIdx, if_neg (by omega : ¬ i < 0)]
    have hwj : wrapIdx ks j = j.toNat := by simp only [wrapIdx, if_neg (by omega : ¬ j < 0)]
    have hiks : i.toNat < ks := by omega
    have hjks : j.toNat < ks := by omega
    have hw2 : wfGrid ks (gridAdd g i.toNat j.toNat v) := wfGrid_gridAdd hw hiks v
    obtain ⟨g2, h1, h2, h3, h4⟩ := ih (gridAdd g i.toNat j.toNat v) hw2
      (fun y hy => hin y (List.mem_cons_of_mem _ hy))
    refine ⟨g2, ?_, h2, ?_, ?_⟩
    · rw [index_put, if_pos hok, hwi, hwj, h1]
    · rw [h3, gridSum_gridAdd hw hiks hjks]
      simp only [List.map_cons, List.sum_cons]
      ring
    · intro hg hvals
      exact h4 (gridNonneg_gridAdd hg (hvals _ (List.mem_cons_self _ _)))
        (fun y hy => hvals y (List.mem_cons_of_mem _ hy))

theorem zipWith3_map_map {α β : Type} (f : ℚ → ℚ → β → ℚ) (g h : α → ℚ) :
    ∀ (l : List α) (ra : List β),
    List.zipWith3 f (l.map g) (l.map h) ra = List.zipWith (fun p a => f (g p) (h p) a) l ra
  | [], ra => by cases ra <;> rfl
  | p :: t, [] => rfl
  | p :: t, a :: ra => by
    simp only [List.map_cons, List.zipWith3, List.zipWith_cons_cons]
    rw [zipWith3_map_map f g h t ra]

theorem four_vals_sum {α : Type} (b c : α → ℚ) :
    ∀ (l : List α) (ra : List ℚ), l.length = ra.length →
    (List.zipWith (fun p a => (1 - b p) * (1 - c p) * a) l ra).sum
    + (List.zipWith (fun p a => (1 - b p) * c p * a) l ra).sum
    + (List.zipWith (fun p a => b p * (1 - c p) * a) l ra).sum
    + (List.zipWith (fun p a => b p * c p * a) l ra).sum = ra.sum
  | [], [], _ => by simp
  | p :: t, [], h => by simp at h
  | [], a :: ra, h => by simp at h
  | p :: t, a :: ra, h => by
    simp only [List.zipWith_cons_cons, List.sum_cons]
    have ih := four_vals_sum b c t ra (by simpa using h)
    linear_combination ih

theorem wfGrid_zeros (ks : ℕ) : wfGrid ks (zerosGrid ks) := by
  constructor
  · simp [zerosGrid]
  · intro row hrow
    rw [List.eq_of_mem_replicate hrow]
    simp

theorem gridSum_zeros (ks : ℕ) : gridSum (zerosGrid ks) = 0 := by
  simp [gridSum, zerosGrid, List.map_replicate, List.sum_replicate]

theorem gridNonneg_zeros (ks : ℕ) : gridNonneg (zerosGrid ks) := by
  intro row hrow v hv
  rw [List.eq_of_mem_replicate hrow] at hv
  rw [List.eq_of_mem_replicate hv]

theorem index_put_stage (ks : ℕ) (g : Grid) {α : Type} (l : List α) (ra : List ℚ)
    (idxF : α → ℤ × ℤ) (valF : α → ℚ → ℚ)
    (hw : wfGrid ks g) (hlen : l.length = ra.length)
    (hidx : ∀ p ∈ l, inGrid ks (idxF p)) :
    ∃ g2, index_put ks g ((l.map idxF).zip (List.zipWith valF l ra)) = .ok g2
      ∧ wfGrid ks g2
      ∧ gridSum g2 = gridSum g + (List.zipWith valF l ra).sum
      ∧ (gridNonneg g → (∀ v ∈ List.zipWith valF l ra, 0 ≤ v) → gridNonneg g2) := by
  have hzlen : (List.zipWith valF l ra).length = (l.map idxF).length := by
    simp [List.length_zipWith, hlen]
  have hsnd : ((l.map idxF).zip (List.zipWith valF l ra)).map Prod.snd
      = List.zipWith valF l ra :=
    List.map_snd_zip _ _ (by omega)
  obtain ⟨g2, h1, h2, h3, h4⟩ := index_put_master ks
    ((l.map idxF).zip (List.zipWith valF l ra)) g hw (by
      rintro ⟨ij, v⟩ hx
      have hij := (List.of_mem_zip hx).1
      obtain ⟨p, hp, rfl⟩ := List.mem_map.1 hij
      exact hidx p hp)
  refine ⟨g2, h1, h2, ?_, ?_⟩
  · rw [h3, hsnd]
  · intro hg hv
    refine h4 hg ?_
    rintro ⟨ij, v⟩ hx
    exact hv _ ((List.of_mem_zip hx).2)

theorem assign_points_master :
    ∀ (points : List V2) (ks : ℕ) (x_range y_range : ℚ × ℚ) (ra : List ℚ)
      (interpolate : Bool) (phase : List ℚ) (d : Option ℚ) (obliq : List ℚ) (wvln : ℚ),
      2 ≤ ks → points.length = ra.length →
      (∀ p ∈ points,
        inGrid ks (⌊(pixelIndexFloat ks x_range y_range p).1⌋,
                   ⌊(pixelIndexFloat ks x_range y_range p).2⌋)
        ∧ (interpolate = true →
            inGrid ks (⌊(pixelIndexFloat ks x_range y_range p).1⌋ + 1,
                       ⌊(pixelIndexFloat ks x_range y_range p).2⌋ + 1))) →
      ∃ g, assign_points_to_pixels points ks x_range y_range ra interpolate phase d obliq wvln
            = .ok g
        ∧ gridSum g = ra.sum
        ∧ ((∀ a ∈ ra, 0 ≤ a) → gridNonneg g) := by
  intro points ks xr yr ra interp phase d obliq wvln hks hlen hin
  simp only [pixelIndexFloat, normalizePoint] at hin
  cases interp
  · -- non-interpolated mode
    simp only [assign_points_to_pixels, if_neg (show ¬ ks = 1 by omega), Bool.false_eq_true,
      if_false, List.map_map]
    obtain ⟨g2, h1, _, h3, h4⟩ := index_put_master ks
      ((points.map ((fun p => (⌊p.1⌋, ⌊p.2⌋)) ∘
          (fun p => (p.1 * ((ks:ℚ) - 1), p.2 * ((ks:ℚ) - 1))) ∘ normalizePoint xr yr)).zip ra)
      (zerosGrid ks) (wfGrid_zeros ks) (by
        rintro ⟨ij, v⟩ hx
        have hij := (List.of_mem_zip hx).1
        obtain ⟨p, hp, rfl⟩ := List.mem_map.1 hij
        exact (hin p hp).1)
    refine ⟨g2, ?_, ?_, ?_⟩
    · simpa [normalizePoint] using h1
    · rw [h3, gridSum_zeros]
      have : ((points.map ((fun p => (⌊p.1⌋, ⌊p.2⌋)) ∘
          (fun p => (p.1 * ((ks:ℚ) - 1), p.2 * ((ks:ℚ) - 1))) ∘ normalizePoint xr yr)).zip ra).map
            Prod.snd = ra :=
        List.map_snd_zip _ _ (by simp [hlen])
      rw [this]
      ring
    · intro hra
      refine h4 (gridNonneg_zeros ks) ?_
      rintro ⟨ij, v⟩ hx
      exact hra _ ((List.of_mem_zip hx).2)
  · -- interpolated mode
    simp only [assign_points_to_pixels, if_neg (show ¬ ks = 1 by omega), if_true,
      List.map_map, zipWith3_map_map]
    set Fm : V2 → V2 :=
      (fun p : V2 => (p.1 * ((ks:ℚ) - 1), p.2 * ((ks:ℚ) - 1))) ∘ normalizePoint xr yr
    set B : V2 → ℚ := (fun p : V2 => p.1 - (⌊p.1⌋ : ℚ)) ∘ Fm
    set C : V2 → ℚ := (fun p : V2 => p.2 - (⌊p.2⌋ : ℚ)) ∘ Fm
    have hidx1 : ∀ p ∈ points, inGrid ks (((fun p : V2 => (⌊p.1⌋, ⌊p.2⌋)) ∘ Fm) p) :=
      fun p hp => (hin p hp).1
    have hidx4 : ∀ p ∈ points, inGrid ks
        (((fun ij : ℤ × ℤ => (ij.1 + 1, ij.2 + 1)) ∘ (fun p : V2 => (⌊p.1⌋, ⌊p.2⌋)) ∘ Fm) p) :=
      fun p hp => (hin p hp).2 rfl
    have hidx2 : ∀ p ∈ points, inGrid ks (((fun p : V2 => (⌊p.1⌋, ⌊p.2 + 1⌋)) ∘ Fm) p) := by
      intro p hp
      have h1 := hidx1 p hp
      have h4 := hidx4 p hp
      simp only [Function.comp_apply, inGrid, Int.floor_add_one] at h1 h4 ⊢
      omega
    have hidx3 : ∀ p ∈ points, inGrid ks (((fun p : V2 => (⌊p.1 + 1⌋, ⌊p.2⌋)) ∘ Fm) p) := by
      intro p hp
      have h1 := hidx1 p hp
      have h4 := hidx4 p hp
      simp only [Function.comp_apply, inGrid, Int.floor_add_one] at h1 h4 ⊢
      omega
    have hB : ∀ p : V2, 0 ≤ B p ∧ B p ≤ 1 :=
      fun p => ⟨Int.fract_nonneg ((Fm p).1), (Int.fract_lt_one ((Fm p).1)).le⟩
    have hC : ∀ p : V2, 0 ≤ C p ∧ C p ≤ 1 :=
      fun p => ⟨Int.fract_nonneg ((Fm p).2), (Int.fract_lt_one ((Fm p).2)).le⟩
    obtain ⟨G1, e1, w1, s1, n1⟩ := index_put_stage ks (zerosGrid ks) points ra
      ((fun p : V2 => (⌊p.1⌋, ⌊p.2⌋)) ∘ Fm)
      (fun p a => (1 - B p) * (1 - C p) * a) (wfGrid_zeros ks) hlen hidx1
    obtain ⟨G2, e2, w2, s2, n2⟩ := index_put_stage ks G1 points ra
      ((fun p : V2 => (⌊p.1⌋, ⌊p.2 + 1⌋)) ∘ Fm)
      (fun p a => (1 - B p) * C p * a) w1 hlen hidx2
    obtain ⟨G3, e3, w3, s3, n3⟩ := index_put_stage ks G2 points ra
      ((fun p : V2 => (⌊p.1 + 1⌋, ⌊p.2⌋)) ∘ Fm)
      (fun p a => B p * (1 - C p) * a) w2 hlen hidx3
    obtain ⟨G4, e4, w4, s4, n4⟩ := index_put_stage ks G3 points ra
      ((fun ij : ℤ × ℤ => (ij.1 + 1, ij.2 + 1)) ∘ (fun p : V2 => (⌊p.1⌋, ⌊p.2⌋)) ∘ Fm)
      (fun p a => B p * C p * a) w3 hlen hidx4
    refine ⟨G4, ?_, ?_, ?_⟩
    · simp only [Bind.bind, Except.bind, e1, e2, e3, e4]
    · rw [s4, s3, s2, s1, gridSum_zeros]
      have hsum := four_vals_sum B C points ra hlen
      linarith [hsum]
    · intro hra
      have hv1 : ∀ v ∈ List.zipWith (fun p a => (1 - B p) * (1 - C p) * a) points ra, 0 ≤ v := by
        intro v hvm
        obtain ⟨p, a, _, ha, rfl⟩ := exists_of_mem_zipWith hvm
        have h0 := hra a ha
        have h1 := hB p
        have h2 := hC p
        have := mul_nonneg (mul_nonneg (by linarith : (0:ℚ) ≤ 1 - B p)
          (by linarith : (0:ℚ) ≤ 1 - C p)) h0
        linarith
      have hv2 : ∀ v ∈ List.zipWith (fun p a => (1 - B p) * C p * a) points ra, 0 ≤ v := by
        intro v hvm
        obtain ⟨p, a, _, ha, rfl⟩ := exists_of_mem_zipWith hvm
        have h0 := hra a ha
        have h1 := hB p
        have h2 := hC p
        have := mul_nonneg (mul_nonneg (by linarith : (0:ℚ) ≤ 1 - B p) h2.1) h0
        linarith
      have hv3 : ∀ v ∈ List.zipWith (fun p a => B p * (1 - C p) * a) points ra, 0 ≤ v := by
        intro v hvm
        obtain ⟨p, a, _, ha, rfl⟩ := exists_of_mem_zipWith hvm
        have h0 := hra a ha
        have h1 := hB p
        have h2 := hC p
        have := mul_nonneg (mul_nonneg h1.1 (by linarith : (0:ℚ) ≤ 1 - C p)) h0
        linarith
      have hv4 : ∀ v ∈ List.zipWith (fun p a => B p * C p * a) points ra, 0 ≤ v := by
        intro v hvm
        obtain ⟨p, a, _, ha, rfl⟩ := exists_of_mem_zipWith hvm
        have h0 := hra a ha
        have h1 := hB p
        have h2 := hC p
        have := mul_nonneg (mul_nonneg h1.1 h2.1) h0
        linarith
      exact n4 (n3 (n2 (n1 (gridNonneg_zeros ks) hv1) hv2) hv3) hv4

theorem set_getD_self {α : Type} : ∀ (l : List α) (n : ℕ) (d : α), l.set n (l.getD n d) = l
  | [], _, _ => by simp
  | a :: t, 0, d => by simp
  | a :: t, n+1, d => by
    simp only [List.set_cons_succ, List.getD_cons_succ]
    rw [set_getD_self t n d]

theorem gridAdd_zero (g : Grid) (i j : ℕ) : gridAdd g i j 0 = g := by
  simp only [gridAdd, rowAdd, add_zero, set_getD_self]

theorem index_put_zeros (ks : ℕ) : ∀ (l : List ((ℤ × ℤ) × ℚ)) (g : Grid),
    (∀ x ∈ l, inGrid ks x.1 ∧ x.2 = 0) → index_put ks g l = .ok g := by
  intro l
  induction l with
  | nil => intro g _; rfl
  | cons x rest ih =>
    intro g hx
    obtain ⟨⟨i, j⟩, v⟩ := x
    have hg1 := (hx _ (List.mem_cons_self _ _)).1
    have hv := (hx _ (List.mem_cons_self _ _)).2
    simp [inGrid] at hg1
    simp at hv
    obtain ⟨hi0, hik, hj0, hjk⟩ := hg1
    subst hv
    have hok : (idxOk ks i && idxOk ks j) = true := by
      simp only [idxOk, Bool.and_eq_true, decide_eq_true_eq]
      omega
    rw [index_put, if_pos hok, gridAdd_zero]
    exact ih g (fun y hy => hx y (List.mem_cons_of_mem _ hy))

theorem floor_bounds {x : ℚ} {m : ℤ} (h0 : 0 < x) (hm : x < (m : ℚ)) :
    0 ≤ ⌊x⌋ ∧ ⌊x⌋ + 1 ≤ m := by
  have h1 : (0:ℤ) ≤ ⌊x⌋ := Int.floor_nonneg.2 h0.le
  have h2 : ⌊x⌋ < m := Int.floor_lt.2 hm
  omega

theorem psf_range_snd_pos {ps : ℚ} {ks : ℕ} (hks : 2 ≤ ks) (hps : 0 < ps) :
    0 < (psf_range ps ks).2 := by
  have h2 : (2:ℚ) ≤ (ks:ℚ) := by exact_mod_cast hks
  simp only [psf_range]
  nlinarith

theorem psf_range_fst (ps : ℚ) (ks : ℕ) : (psf_range ps ks).1 = -(psf_range ps ks).2 := by
  simp only [psf_range]
  ring

theorem passed_index_bounds {ps : ℚ} {ks : ℕ} (hks : 2 ≤ ks) (hps : 0 < ps)
    {q : V2} (hq1 : |q.1| < (psf_range ps ks).2) (hq2 : |q.2| < (psf_range ps ks).2) :
    (0 ≤ ⌊(pixelIndexFloat ks (psf_range ps ks) (psf_range ps ks) q).1⌋
      ∧ ⌊(pixelIndexFloat ks (psf_range ps ks) (psf_range ps ks) q).1⌋ + 1 ≤ (ks : ℤ) - 1)
    ∧ (0 ≤ ⌊(pixelIndexFloat ks (psf_range ps ks) (psf_range ps ks) q).2⌋
      ∧ ⌊(pixelIndexFloat ks (psf_range ps ks) (psf_range ps ks) q).2⌋ + 1 ≤ (ks : ℤ) - 1) := by
  have hR := psf_range_snd_pos hks hps
  have hfst : (psf_range ps ks).1 = -(psf_range ps ks).2 := psf_range_fst ps ks
  set R := (psf_range ps ks).2 with hRdef
  have h2 : (2:ℚ) ≤ (ks:ℚ) := by exact_mod_cast hks
  have habs1 := abs_lt.1 hq1
  have habs2 := abs_lt.1 hq2
  have hks1 : (0:ℚ) < (ks:ℚ) - 1 := by linarith
  constructor
  · have hval : (pixelIndexFloat ks (psf_range ps ks) (psf_range ps ks) q).1
        = (R - q.2) / (2*R) * ((ks:ℚ) - 1) := by
      simp only [pixelIndexFloat, normalizePoint, hfst]
      rw [show (-R - R : ℚ) = -(2*R) by ring, show (q.2 - R : ℚ) = -(R - q.2) by ring,
        neg_div_neg_eq]
    rw [hval]
    have hratio0 : 0 < (R - q.2) / (2*R) := div_pos (by linarith) (by linarith)
    have hratio1 : (R - q.2) / (2*R) < 1 := (div_lt_one (by linarith)).2 (by linarith)
    refine floor_bounds (mul_pos hratio0 hks1) ?_
    have hmul := mul_lt_mul_of_pos_right hratio1 hks1
    rw [one_mul] at hmul
    push_cast
    linarith
  · have hval : (pixelIndexFloat ks (psf_range ps ks) (psf_range ps ks) q).2
        = (q.1 + R) / (2*R) * ((ks:ℚ) - 1) := by
      simp only [pixelIndexFloat, normalizePoint, hfst]
      rw [show (q.1 - -R : ℚ) = q.1 + R by ring, show (R - -R : ℚ) = 2*R by ring]
    rw [hval]
    have hratio0 : 0 < (q.1 + R) / (2*R) := div_pos (by linarith) (by linarith)
    have hratio1 : (q.1 + R) / (2*R) < 1 := (div_lt_one (by linarith)).2 (by linarith)
    refine floor_bounds (mul_pos hratio0 hks1) ?_
    have hmul := mul_lt_mul_of_pos_right hratio1 hks1
    rw [one_mul] at hmul
    push_cast
    linarith

theorem fwdRa_all_zero {r : Ray1} (ps : ℚ) (ks : ℕ) (c : Option V2)
    (h : ∀ a ∈ r.ra, a = 0) : ∀ v ∈ fwdRa r ps ks c, v = 0 := by
  intro v hv
  obtain ⟨a, s, ha, _, rfl⟩ := exists_of_mem_zipWith hv
  rw [h a ha]
  ring

theorem fwdPassed_all_zero {r : Ray1} (ps : ℚ) (ks : ℕ) (c : Option V2)
    (h : ∀ a ∈ r.ra, a = 0) : ∀ q ∈ fwdPassed r ps ks c, q = (0, 0) := by
  intro q hq
  obtain ⟨s, v, _, hv, rfl⟩ := exists_of_mem_zipWith hq
  rw [fwdRa_all_zero ps ks c h v hv]
  simp

theorem fwdPassed_bound {r : Ray1} {ps : ℚ} {ks : ℕ} {c : Option V2}
    (hks : 2 ≤ ks) (hps : 0 < ps) (hra : ∀ a ∈ r.ra, 0 ≤ a ∧ a ≤ 1) :
    ∀ q ∈ fwdPassed r ps ks c, |q.1| < (psf_range ps ks).2 ∧ |q.2| < (psf_range ps ks).2 := by
  intro q hqmem
  have hR := psf_range_snd_pos hks hps
  obtain ⟨i, hi⟩ := List.mem_iff_getElem?.1 hqmem
  simp only [fwdPassed, List.getElem?_zipWith] at hi
  cases hs : (fwdShift r c)[i]? with
  | none => rw [hs] at hi; simp at hi
  | some s =>
    cases hv : (fwdRa r ps ks c)[i]? with
    | none => rw [hs, hv] at hi; simp at hi
    | some v =>
      rw [hs, hv] at hi
      simp only [Option.some.injEq] at hi
      subst hi
      simp only [fwdRa, List.getElem?_zipWith, hs] at hv
      cases ha : r.ra[i]? with
      | none => rw [ha] at hv; simp at hv
      | some a =>
        rw [ha] at hv
        simp only [Option.some.injEq] at hv
        have haa := hra a (List.getElem?_mem ha)
        by_cases h1 : |s.1| < (psf_range ps ks).2 - ps / 100
        · by_cases h2 : |s.2| < (psf_range ps ks).2 - ps / 100
          · rw [if_pos h1, if_pos h2, mul_one, mul_one] at hv
            subst hv
            constructor
            · calc |s.1 * a| = |s.1| * a := by
                    rw [abs_mul, abs_of_nonneg haa.1]
                _ ≤ |s.1| * 1 := by
                    exact mul_le_mul_of_nonneg_left haa.2 (abs_nonneg s.1)
                _ = |s.1| := mul_one _
                _ < (psf_range ps ks).2 := by linarith
            · calc |s.2 * a| = |s.2| * a := by
                    rw [abs_mul, abs_of_nonneg haa.1]
                _ ≤ |s.2| * 1 := by
                    exact mul_le_mul_of_nonneg_left haa.2 (abs_nonneg s.2)
                _ = |s.2| := mul_one _
                _ < (psf_range ps ks).2 := by linarith
          · rw [if_neg h2, mul_zero] at hv
            subst hv
            constructor <;> simp [hR]
        · rw [if_neg h1, mul_zero, zero_mul] at hv
          subst hv
          constructor <;> simp [hR]

theorem index_put_append_zero {ks : ℕ} {ij0 : ℤ × ℤ} (hin : inGrid ks ij0) :
    ∀ (l : List ((ℤ × ℤ) × ℚ)) (g : Grid),
    index_put ks g (l ++ [(ij0, 0)]) = index_put ks g l := by
  obtain ⟨i0, j0⟩ := ij0
  have hok : (idxOk ks i0 && idxOk ks j0) = true := by
    obtain ⟨h1, h2, h3, h4⟩ := hin
    simp only [idxOk, Bool.and_eq_true, decide_eq_true_eq]
    simp at h2 h4
    omega
  intro l
  induction l with
  | nil =>
    intro g
    simp only [List.nil_append, index_put, hok, if_true, gridAdd_zero]
  | cons x rest ih =>
    intro g
    obtain ⟨⟨i, j⟩, v⟩ := x
    simp only [List.cons_append]
    rw [index_put, index_put]
    split
    · exact ih _
    · rfl

theorem fwd_append_boundary :
    ∀ (r : Ray1) (ps : ℚ) (ks : ℕ) (c : V2) (o0 d0 : V3) (a0 : ℚ) (b : Bool),
      2 ≤ ks → 0 < ps → r.ra.length = r.o.length →
      (|(neg2 o0).1 - c.1| = (psf_range ps ks).2 ∨ |(neg2 o0).2 - c.2| = (psf_range ps ks).2) →
      forward_integral (appendSample r o0 d0 a0) ps ks (some c) b
        = forward_integral r ps ks (some c) b := by
  intro r ps ks c o0 d0 a0 b hks hps hlen hbd
  have hR := psf_range_snd_pos hks hps
  have hlsh : (fwdShift r (some c)).length = r.o.length := by
    simp [fwdShift, fwdPoints]
  have hlra : (fwdRa r ps ks (some c)).length = r.o.length := by
    simp only [fwdRa, List.length_zipWith, hlsh, hlen]
    omega
  have hshift : fwdShift (appendSample r o0 d0 a0) (some c)
      = fwdShift r (some c) ++ [((neg2 o0).1 - c.1, (neg2 o0).2 - c.2)] := by
    simp [fwdShift, fwdPoints, appendSample, fwdCenter]
  have hraapp : fwdRa (appendSample r o0 d0 a0) ps ks (some c)
      = fwdRa r ps ks (some c) ++ [0] := by
    simp only [fwdRa, hshift]
    show List.zipWith _ (r.ra ++ [a0]) _ = _
    rw [List.zipWith_append _ _ _ _ _ (by rw [hlsh]; exact hlen)]
    congr 1
    simp only [List.zipWith_cons_cons, List.zipWith_nil_right]
    rcases hbd with h | h
    · rw [if_neg (show ¬ |((neg2 o0).1 - c.1, (neg2 o0).2 - c.2).1| <
          (psf_range ps ks).2 - ps/100 by
            simp only []
            rw [h]
            exact not_lt.2 (by linarith))]
      simp
    · rw [if_neg (show ¬ |((neg2 o0).1 - c.1, (neg2 o0).2 - c.2).2| <
          (psf_range ps ks).2 - ps/100 by
            simp only []
            rw [h]
            exact not_lt.2 (by linarith))]
      simp
  have hpassapp : fwdPassed (appendSample r o0 d0 a0) ps ks (some c)
      = fwdPassed r ps ks (some c) ++ [(0, 0)] := by
    simp only [fwdPassed, hshift, hraapp]
    rw [List.zipWith_append _ _ _ _ _ (by rw [hlsh, hlra])]
    congr 1
    simp
  have hlpass : (fwdPassed r ps ks (some c)).length = (fwdRa r ps ks (some c)).length := by
    simp only [fwdPassed, List.length_zipWith, hlsh, hlra]
    omega
  have hb00 := passed_index_bounds hks hps
    (show |((0:ℚ), (0:ℚ)).1| < (psf_range ps ks).2 by simpa using hR)
    (show |((0:ℚ), (0:ℚ)).2| < (psf_range ps ks).2 by simpa using hR)
  simp only [pixelIndexFloat, normalizePoint] at hb00
  simp only [forward_integral, assign_points_to_pixels,
    if_neg (show ¬ ks = 1 by omega), if_true, List.map_map, zipWith3_map_map,
    hpassapp, hraapp]
  set Fm : V2 → V2 := (fun p : V2 => (p.1 * ((ks:ℚ) - 1), p.2 * ((ks:ℚ) - 1))) ∘
    normalizePoint (psf_range ps ks) (psf_range ps ks) with hFm
  set B : V2 → ℚ := (fun p : V2 => p.1 - (⌊p.1⌋ : ℚ)) ∘ Fm
  set C : V2 → ℚ := (fun p : V2 => p.2 - (⌊p.2⌋ : ℚ)) ∘ Fm
  have hin1 : inGrid ks (((fun p : V2 => (⌊p.1⌋, ⌊p.2⌋)) ∘ Fm) (0, 0)) := by
    simp only [hFm, Function.comp_apply, inGrid, normalizePoint]
    omega
  have hin4 : inGrid ks (((fun ij : ℤ × ℤ => (ij.1 + 1, ij.2 + 1)) ∘
      (fun p : V2 => (⌊p.1⌋, ⌊p.2⌋)) ∘ Fm) (0, 0)) := by
    simp only [hFm, Function.comp_apply, inGrid, normalizePoint]
    omega
  have hin2 : inGrid ks (((fun p : V2 => (⌊p.1⌋, ⌊p.2 + 1⌋)) ∘ Fm) (0, 0)) := by
    simp only [hFm, Function.comp_apply, inGrid, normalizePoint, Int.floor_add_one]
    omega
  have hin3 : inGrid ks (((fun p : V2 => (⌊p.1 + 1⌋, ⌊p.2⌋)) ∘ Fm) (0, 0)) := by
    simp only [hFm, Function.comp_apply, inGrid, normalizePoint, Int.floor_add_one]
    omega
  have happ : ∀ (idxF : V2 → ℤ × ℤ) (valF : V2 → ℚ → ℚ) (g : Grid),
      inGrid ks (idxF (0, 0)) → valF (0, 0) 0 = 0 →
      index_put ks g (((fwdPassed r ps ks (some c) ++ [(0, 0)]).map idxF).zip
        (List.zipWith valF (fwdPassed r ps ks (some c) ++ [(0, 0)])
          (fwdRa r ps ks (some c) ++ [0])))
      = index_put ks g (((fwdPassed r ps ks (some c)).map idxF).zip
        (List.zipWith valF (fwdPassed r ps ks (some c)) (fwdRa r ps ks (some c)))) := by
    intro idxF valF g hidx hval
    rw [List.map_append, List.zipWith_append _ _ _ _ _ hlpass,
      List.zip_append (by simp [List.length_zipWith, hlpass])]
    simp only [List.map_cons, List.map_nil, List.zipWith_cons_cons, List.zipWith_nil_right,
      List.zip_cons_cons, List.zip_nil_right, hval]
    exact index_put_append_zero hidx _ g
  have e1 : ∀ g : Grid, _ = _ := fun g => happ ((fun p : V2 => (⌊p.1⌋, ⌊p.2⌋)) ∘ Fm)
    (fun p a => (1 - B p) * (1 - C p) * a) g hin1 (by ring)
  have e2 : ∀ g : Grid, _ = _ := fun g => happ ((fun p : V2 => (⌊p.1⌋, ⌊p.2 + 1⌋)) ∘ Fm)
    (fun p a => (1 - B p) * C p * a) g hin2 (by ring)
  have e3 : ∀ g : Grid, _ = _ := fun g => happ ((fun p : V2 => (⌊p.1 + 1⌋, ⌊p.2⌋)) ∘ Fm)
    (fun p a => B p * (1 - C p) * a) g hin3 (by ring)
  have e4 : ∀ g : Grid, _ = _ := fun g => happ ((fun ij : ℤ × ℤ => (ij.1 + 1, ij.2 + 1)) ∘
      (fun p : V2 => (⌊p.1⌋, ⌊p.2⌋)) ∘ Fm)
    (fun p a => B p * C p * a) g hin4 (by ring)
  simp only [e1, e2, e3, e4]

theorem sumFn_apply {N : ℕ} (l : List (Fin N → ℚ)) (i : Fin N) :
    sumFn l i = (colOf l i).sum := by
  induction l with
  | nil => rfl
  | cons row t ih =>
    show row i + sumFn t i = (row i :: colOf t i).sum
    rw [List.sum_cons, ih]

theorem pointAt_points {N : ℕ} (r : RayN N) (i : Fin N) :
    colOf (fwdPointsN r) i = fwdPoints (pointAt r i) := by
  simp only [colOf, fwdPointsN, fwdPoints, pointAt, List.map_map]
  rfl

theorem pointAt_center {N : ℕ} (r : RayN N) (c : Option V2) (i : Fin N) :
    fwdCenterN r c i = fwdCenter (pointAt r i) c := by
  cases c with
  | some c0 => rfl
  | none =>
    simp only [fwdCenterN, fwdCenter, sumFn_apply, colOf, List.map_zipWith, List.map_map,
      fwdPointsN, fwdPoints, pointAt, List.zipWith_map, List.zipWith_map_left, List.zipWith_map_right]
    rfl

theorem pointAt_shift {N : ℕ} (r : RayN N) (c : Option V2) (i : Fin N) :
    colOf (fwdShiftN r c) i = fwdShift (pointAt r i) c := by
  rw [fwdShift, ← pointAt_points, ← pointAt_center]
  simp only [colOf, fwdShiftN, List.map_map]
  rfl

theorem pointAt_ra {N : ℕ} (r : RayN N) (ps : ℚ) (ks : ℕ) (c : Option V2) (i : Fin N) :
    colOf (fwdRaN r ps ks c) i = fwdRa (pointAt r i) ps ks c := by
  rw [fwdRa, ← pointAt_shift]
  show colOf (fwdRaN r ps ks c) i = List.zipWith _ (r.ra.map (fun row => row i)) _
  simp only [colOf, fwdRaN, List.map_zipWith, List.zipWith_map_left, List.zipWith_map_right]

theorem pointAt_passed {N : ℕ} (r : RayN N) (ps : ℚ) (ks : ℕ) (c : Option V2) (i : Fin N) :
    colOf (fwdPassedN r ps ks c) i = fwdPassed (pointAt r i) ps ks c := by
  rw [fwdPassed, ← pointAt_shift, ← pointAt_ra]
  simp only [colOf, fwdPassedN, List.map_zipWith, List.zipWith_map_left, List.zipWith_map_right]

theorem pointAt_obliq {N : ℕ} (r : RayN N) (i : Fin N) :
    r.d.map (fun row => ((row i).2.2) ^ 2) = obliqList (pointAt r i) := by
  simp only [obliqList, pointAt, List.map_map]
  rfl

theorem castRow_getD (r : List ℚ) (j : ℕ) : (castRow r).getD j 0 = ((r.getD j 0 : ℚ) : ℂ) := by
  rw [castRow, show (0 : ℂ) = (((0:ℚ)) : ℂ) by norm_num]
  exact List.getD_map r (0 : ℚ) (fun v : ℚ => (v : ℂ))

theorem rowAddC_cast (r : List ℚ) (j : ℕ) (v : ℚ) :
    rowAddC (castRow r) j ((v : ℚ) : ℂ) = castRow (rowAdd r j v) := by
  rw [rowAddC, rowAdd, castRow_getD]
  simp only [castRow, List.map_set, Rat.cast_add]

theorem castGrid_getD (g : Grid) (i : ℕ) : (castGrid g).getD i [] = castRow (g.getD i []) := by
  rw [castGrid, show ([] : List ℂ) = castRow [] from rfl]
  exact List.getD_map g ([] : List ℚ) castRow

theorem gridAddC_cast (g : Grid) (i j : ℕ) (v : ℚ) :
    gridAddC (castGrid g) i j ((v : ℚ) : ℂ) = castGrid (gridAdd g i j v) := by
  rw [gridAddC, gridAdd, castGrid_getD, rowAddC_cast]
  simp only [castGrid, List.map_set]

theorem index_putC_cast (ks : ℕ) :
    ∀ (l : List ((ℤ × ℤ) × ℚ)) (g : Grid),
    index_putC ks (castGrid g) (l.map (Prod.map id (fun v : ℚ => (v : ℂ))))
      = Except.map castGrid (index_put ks g l) := by
  intro l
  induction l with
  | nil => intro g; rfl
  | cons x rest ih =>
    intro g
    obtain ⟨⟨i, j⟩, v⟩ := x
    simp only [List.map_cons, Prod.map, id]
    rw [index_putC, index_put]
    by_cases hok : (idxOk ks i && idxOk ks j) = true
    · rw [if_pos hok, if_pos hok, gridAddC_cast, ih]
    · rw [if_neg hok, if_neg hok]
      rfl

theorem zerosCGrid_cast (ks : ℕ) : zerosCGrid ks = castGrid (zerosGrid ks) := by
  simp [zerosCGrid, zerosGrid, castGrid, castRow, List.map_replicate, Rat.cast_zero]

theorem bind_map_comm {e : Except String Grid} {kq : Grid → Except String Grid}
    {kc : CGrid → Except String CGrid}
    (h : ∀ g, kc (castGrid g) = Except.map castGrid (kq g)) :
    (Except.map castGrid e >>= kc) = Except.map castGrid (e >>= kq) := by
  cases e with
  | error e => rfl
  | ok g => exact h g

theorem zipWith3_cast (f : ℚ → ℚ → ℚ → ℚ) :
    ∀ (as bs cs : List ℚ),
    List.zipWith3 (fun a b c => ((f a b c : ℚ) : ℂ)) as bs cs
    = (List.zipWith3 f as bs cs).map (fun v : ℚ => (v : ℂ))
  | [], bs, cs => by cases bs <;> cases cs <;> rfl
  | a :: as, [], cs => by cases cs <;> rfl
  | a :: as, b :: bs, [] => rfl
  | a :: as, b :: bs, c :: cs => by
    simp only [List.zipWith3, List.map_cons]
    rw [zipWith3_cast f as bs cs]

/-- The complete model restricted to `coherent=False` computes exactly
the incoherent model's grid, entrywise embedded into `ℂ` — the two
translations of `assign_points_to_pixels` agree on their common
domain. -/
theorem assign_full_incoherent_agrees :
    ∀ (points : List V2) (ks : ℕ) (x_range y_range : ℚ × ℚ) (ra : List ℚ)
      (interpolate : Bool) (phase : List ℚ) (d : Option ℚ) (obliq : List ℚ) (wvln : ℚ),
      assign_points_to_pixels_full points ks x_range y_range ra interpolate false phase d obliq wvln
      = Except.map castGrid
          (assign_points_to_pixels points ks x_range y_range ra interpolate phase d obliq wvln) := by
  intro points ks xr yr ra interp phase d obliq wvln
  by_cases hks : ks = 1
  · subst hks
    rfl
  · cases interp
    · simp only [assign_points_to_pixels_full, assign_points_to_pixels, if_neg hks,
        Bool.false_eq_true, if_false, zerosCGrid_cast, List.zip_map_right]
      exact index_putC_cast ks _ _
    · simp only [assign_points_to_pixels_full, assign_points_to_pixels, if_neg hks, if_true,
        Bool.false_eq_true, if_false, zerosCGrid_cast, zipWith3_cast, List.zip_map_right]
      simp only [index_putC_cast]
      refine bind_map_comm ?_
      intro g1
      simp only [index_putC_cast]
      refine bind_map_comm ?_
      intro g2
      simp only [index_putC_cast]
      refine bind_map_comm ?_
      intro g3
      exact index_putC_cast ks _ g3

/-! ## Claim theorems -/

/-- C1 (amended): `forward_integral` does NOT forward its `interpolate`
argument — the call at line 43 omits it, so the Splatter always runs with
its own default `interpolate=True` and the flag has no effect on the
output.  The spec's concrete scenario (single point, `spp=4`, `ks=4`,
`ps=1`, samples exactly at the 4 interior grid-cell centers, `ra=1`,
`interpolate=False`) nonetheless produces exactly 1.0 at those 4 cells
and 0 elsewhere, because samples on exact lattice points receive zero
bilinear shares at the neighbouring cells. -/
theorem C1_amended :
    (∀ (r : Ray1) (ps : ℚ) (ks : ℕ) (c : Option V2) (b₁ b₂ : Bool),
      forward_integral r ps ks c b₁ = forward_integral r ps ks c b₂)
    ∧ forward_integral scenarioRay 1 4 none false
        = .ok [[0, 0, 0, 0], [0, 1, 1, 0], [0, 1, 1, 0], [0, 0, 0, 0]] := by
  refine ⟨fun _ _ _ _ _ _ => rfl, ?_⟩
  rw [forward_integral, scenario_passed_eval.1, scenario_passed_eval.2]
  simp only [assign_points_to_pixels, normalizePoint, psf_range, List.zipWith3,
    List.map_cons, List.map_nil, List.zip_cons_cons, List.zip_nil_right, zerosGrid]
  norm_num
  simp [index_put, idxOk, wrapIdx, gridAdd, rowAdd, Bind.bind, Except.bind]

/-- C1 (counterexample): calling `forward_integral` with
`interpolate=False` does not produce the non-interpolated rasterization —
on a one-sample bundle sitting strictly between lattice points the result
differs from the Splatter run with `interpolate=False` on the identical
points and weights. -/
theorem C1_counterexample :
    forward_integral offGridRay 1 4 (some (0, 0)) false
    ≠ assign_points_to_pixels (fwdPassed offGridRay 1 4 (some (0, 0))) 4
        (psf_range 1 4) (psf_range 1 4) (fwdRa offGridRay 1 4 (some (0, 0)))
        false [] none (obliqList offGridRay) (589 / 1000) := by
  rw [forward_integral, offgrid_passed_eval.1, offgrid_passed_eval.2]
  simp only [assign_points_to_pixels, normalizePoint, psf_range, List.zipWith3,
    List.map_cons, List.map_nil, List.zip_cons_cons, List.zip_nil_right, zerosGrid]
  norm_num
  simp [index_put, idxOk, wrapIdx, gridAdd, rowAdd, Bind.bind, Except.bind]

/-- C4 (amended): masking zeroes the weights of excluded samples, but the
position handed to the Splatter is the shifted point SCALED BY its own
masked weight (line 38 multiplies `points_shift` by `ra`); it equals the
shifted point itself exactly when that weight is 1. -/
theorem C4_amended :
    ∀ (r : Ray1) (ps : ℚ) (ks : ℕ) (c : Option V2) (i : ℕ) (s : V2) (a : ℚ),
      (fwdShift r c)[i]? = some s →
      (fwdRa r ps ks c)[i]? = some a →
      (fwdPassed r ps ks c)[i]? = some (s.1 * a, s.2 * a)
      ∧ (a = 1 → (fwdPassed r ps ks c)[i]? = some s) := by
  intro r ps ks c i s a hs ha
  have h : (fwdPassed r ps ks c)[i]? = some (s.1 * a, s.2 * a) := by
    simp [fwdPassed, List.getElem?_zipWith, hs, ha]
  exact ⟨h, fun h1 => by simpa [h1] using h⟩

/-- C4 (witness): the amended theorem applied to `halfWeightRay`. -/
theorem C4_witness :
    (fwdPassed halfWeightRay 1 4 (some (0, 0)))[0]? = some (1/8, 1/8) := by
  have hs : (fwdShift halfWeightRay (some (0, 0)))[0]? = some (1/4, 1/4) := by
    simp only [fwdShift, fwdCenter, fwdPoints, halfWeightRay, neg2, List.map_cons,
      List.map_nil, List.getElem?_cons_zero]
    norm_num
  have ha : (fwdRa halfWeightRay 1 4 (some (0, 0)))[0]? = some (1/2) := by
    simp only [fwdRa, fwdShift, fwdCenter, fwdPoints, halfWeightRay, neg2, psf_range,
      List.map_cons, List.map_nil, List.zipWith_cons_cons, List.zipWith_nil_right,
      List.getElem?_cons_zero, abs_lt]
    norm_num
  have h2 := (C4_amended halfWeightRay 1 4 (some (0, 0)) 0 (1/4, 1/4) (1/2) hs ha).1
  norm_num at h2
  exact h2

/-- C4 (counterexample): a surviving sample of weight `1/2 ∈ (0,1]` with
shifted position `(1/4, 1/4)` is passed to the Splatter at `(1/8, 1/8)`,
not at its shifted position. -/
theorem C4_counterexample :
    fwdRa halfWeightRay 1 4 (some (0, 0)) = [1/2]
    ∧ fwdShift halfWeightRay (some (0, 0)) = [(1/4, 1/4)]
    ∧ fwdPassed halfWeightRay 1 4 (some (0, 0)) ≠ [(1/4, 1/4)] := by
  norm_num [fwdRa, fwdShift, fwdPassed, fwdPoints, fwdCenter, halfWeightRay, neg2,
    psf_range, abs]

/-- C8 (amended): `ks = 1` is fatal on every input (the pixel-size
division by `ks - 1` raises `ZeroDivisionError` before any sample is
touched), and `ks = 0` is fatal whenever at least one sample and weight
are present (no index fits a size-0 grid); but `ks = 0` with an empty
sample set returns an empty grid instead of failing. -/
theorem C8_amended :
    (∀ (points : List V2) (x_range y_range : ℚ × ℚ) (ra : List ℚ)
       (interpolate : Bool) (phase : List ℚ) (d : Option ℚ) (obliq : List ℚ) (wvln : ℚ),
       assign_points_to_pixels points 1 x_range y_range ra interpolate phase d obliq wvln
       = .error "ZeroDivisionError")
    ∧ (∀ (p : V2) (points : List V2) (x_range y_range : ℚ × ℚ) (a : ℚ) (ra : List ℚ)
       (interpolate : Bool) (phase : List ℚ) (d : Option ℚ) (obliq : List ℚ) (wvln : ℚ),
       assign_points_to_pixels (p :: points) 0 x_range y_range (a :: ra) interpolate phase d obliq wvln
       = .error "IndexError") := by
  constructor
  · intro points x_range y_range ra interpolate phase d obliq wvln
    rfl
  · intro p points x_range y_range a ra interpolate phase d obliq wvln
    cases interpolate
    · simp [assign_points_to_pixels, index_put_zero_cons]
    · simp [assign_points_to_pixels, List.zipWith3, index_put_zero_cons, Bind.bind, Except.bind]

/-- C8 (counterexample): `ks = 0 < 2` with an empty sample set does not
fail — it returns a (0-by-0) grid. -/
theorem C8_counterexample :
    assign_points_to_pixels [] 0 (psf_range 1 0) (psf_range 1 0) [] true [] none [] (589/1000)
    = .ok [] := rfl

/-- C2: energy conservation of the Splatter in incoherent mode — when
every computed target lattice index lies in `[0, ks-1]` on both axes,
the sum of the returned grid equals the sum of the weights `ra`, in both
the non-interpolated mode (each `ra` goes wholly to one cell) and the
interpolated mode (the four bilinear shares of each sample sum to its
`ra`). -/
theorem C2_energy_conservation :
    ∀ (points : List V2) (ks : ℕ) (x_range y_range : ℚ × ℚ) (ra : List ℚ)
      (interpolate : Bool) (phase : List ℚ) (d : Option ℚ) (obliq : List ℚ) (wvln : ℚ),
      2 ≤ ks → points.length = ra.length →
      (∀ p ∈ points,
        inGrid ks (⌊(pixelIndexFloat ks x_range y_range p).1⌋,
                   ⌊(pixelIndexFloat ks x_range y_range p).2⌋)
        ∧ (interpolate = true →
            inGrid ks (⌊(pixelIndexFloat ks x_range y_range p).1⌋ + 1,
                       ⌊(pixelIndexFloat ks x_range y_range p).2⌋ + 1))) →
      ∃ g, assign_points_to_pixels points ks x_range y_range ra interpolate phase d obliq wvln
            = .ok g
        ∧ gridSum g = ra.sum := by
  intro points ks xr yr ra interp phase d obliq wvln hks hlen hin
  obtain ⟨g, h1, h2, _⟩ := assign_points_master points ks xr yr ra interp phase d obliq wvln
    hks hlen hin
  exact ⟨g, h1, h2⟩

/-- C2 (witness): two interpolated samples with weights `1/3` and `2`
produce a grid of total energy `7/3`. -/
theorem C2_witness :
    ∃ g, assign_points_to_pixels [(1/2, 1/2), (-1/2, -1/2)] 4 (-(3:ℚ)/2, 3/2) (-(3:ℚ)/2, 3/2)
          [1/3, 2] true [] none [] (589/1000) = .ok g
      ∧ gridSum g = 7/3 := by
  obtain ⟨g, h1, h2⟩ := C2_energy_conservation [(1/2, 1/2), (-1/2, -1/2)] 4
    (-(3:ℚ)/2, 3/2) (-(3:ℚ)/2, 3/2) [1/3, 2] true [] none [] (589/1000)
    (by norm_num) (by norm_num) (by
      intro p hp
      rcases List.mem_cons.1 hp with rfl | hp2
      · constructor
        · norm_num [pixelIndexFloat, normalizePoint, inGrid]
        · intro _
          norm_num [pixelIndexFloat, normalizePoint, inGrid]
      · rcases List.mem_cons.1 hp2 with rfl | hp3
        · constructor
          · norm_num [pixelIndexFloat, normalizePoint, inGrid]
          · intro _
            norm_num [pixelIndexFloat, normalizePoint, inGrid]
        · simp at hp3)
  refine ⟨g, h1, ?_⟩
  rw [h2]
  norm_num

/-- C10: non-negativity of the incoherent output — with non-negative
weights and in-grid indices, every entry of the returned grid is
non-negative in both interpolation modes, because every bilinear share
coefficient lies in `[0, 1]` and accumulation only adds non-negative
contributions to a zero grid. -/
theorem C10_output_nonneg :
    ∀ (points : List V2) (ks : ℕ) (x_range y_range : ℚ × ℚ) (ra : List ℚ)
      (interpolate : Bool) (phase : List ℚ) (d : Option ℚ) (obliq : List ℚ) (wvln : ℚ),
      2 ≤ ks → points.length = ra.length → (∀ a ∈ ra, 0 ≤ a) →
      (∀ p ∈ points,
        inGrid ks (⌊(pixelIndexFloat ks x_range y_range p).1⌋,
                   ⌊(pixelIndexFloat ks x_range y_range p).2⌋)
        ∧ (interpolate = true →
            inGrid ks (⌊(pixelIndexFloat ks x_range y_range p).1⌋ + 1,
                       ⌊(pixelIndexFloat ks x_range y_range p).2⌋ + 1))) →
      ∃ g, assign_points_to_pixels points ks x_range y_range ra interpolate phase d obliq wvln
            = .ok g
        ∧ gridNonneg g := by
  intro points ks xr yr ra interp phase d obliq wvln hks hlen hra hin
  obtain ⟨g, h1, _, h3⟩ := assign_points_master points ks xr yr ra interp phase d obliq wvln
    hks hlen hin
  exact ⟨g, h1, h3 hra⟩

/-- C10 (witness): a non-interpolated one-sample call has a grid with
only non-negative entries. -/
theorem C10_witness :
    ∃ g, assign_points_to_pixels [(1/2, 1/2)] 4 (-(3:ℚ)/2, 3/2) (-(3:ℚ)/2, 3/2)
          [3/4] false [] none [] (589/1000) = .ok g
      ∧ gridNonneg g := by
  exact C10_output_nonneg [(1/2, 1/2)] 4 (-(3:ℚ)/2, 3/2) (-(3:ℚ)/2, 3/2) [3/4] false
    [] none [] (589/1000) (by norm_num) (by norm_num) (by
      intro a ha
      rcases List.mem_cons.1 ha with rfl | ha2
      · norm_num
      · simp at ha2) (by
      intro p hp
      rcases List.mem_cons.1 hp with rfl | hp2
      · constructor
        · norm_num [pixelIndexFloat, normalizePoint, inGrid]
        · intro hfalse
          simp at hfalse
      · simp at hp2)

/-- C9: `obliq`, `d` and `wvln` are accepted by the Splatter but never
multiplied into either accumulation formula — neither the incoherent
one nor the coherent one (lines 99-119) — so two calls that agree on
points, `ks`, the ranges, `ra`, `interpolate`, `coherent` and `phase`
but differ arbitrarily in them return identical grids.  Stated for the
complete model (`assign_points_to_pixels_full`, both branches) and for
the incoherent specialization. -/
theorem C9_obliq_d_wvln_no_effect :
    (∀ (points : List V2) (ks : ℕ) (x_range y_range : ℚ × ℚ) (ra : List ℚ)
       (interpolate coherent : Bool) (phase : List ℚ) (d₁ d₂ : Option ℚ)
       (obliq₁ obliq₂ : List ℚ) (wvln₁ wvln₂ : ℚ),
       assign_points_to_pixels_full points ks x_range y_range ra interpolate coherent phase
         d₁ obliq₁ wvln₁
       = assign_points_to_pixels_full points ks x_range y_range ra interpolate coherent phase
         d₂ obliq₂ wvln₂)
    ∧ (∀ (points : List V2) (ks : ℕ) (x_range y_range : ℚ × ℚ) (ra : List ℚ)
       (interpolate : Bool) (phase : List ℚ) (d₁ d₂ : Option ℚ)
       (obliq₁ obliq₂ : List ℚ) (wvln₁ wvln₂ : ℚ),
       assign_points_to_pixels points ks x_range y_range ra interpolate phase d₁ obliq₁ wvln₁
       = assign_points_to_pixels points ks x_range y_range ra interpolate phase d₂ obliq₂ wvln₂) :=
  ⟨fun _ _ _ _ _ _ _ _ _ _ _ _ _ _ => rfl, fun _ _ _ _ _ _ _ _ _ _ _ _ _ => rfl⟩

/-- C3: masking prevents boundary overflow — for every bundle with
weights in `[0,1]`, `ks ≥ 2` and `ps > 0`, every sample that
`forward_integral` passes to the Splatter (masked ones included, whose
position was zeroed along with their weight) has a floor lattice index
and floor-plus-one, on both axes, inside `[0, ks-1]`. -/
theorem C3_mask_prevents_overflow :
    ∀ (r : Ray1) (ps : ℚ) (ks : ℕ) (c : Option V2), 2 ≤ ks → 0 < ps →
      (∀ a ∈ r.ra, 0 ≤ a ∧ a ≤ 1) →
      ∀ q ∈ fwdPassed r ps ks c,
        (0 ≤ ⌊(pixelIndexFloat ks (psf_range ps ks) (psf_range ps ks) q).1⌋
          ∧ ⌊(pixelIndexFloat ks (psf_range ps ks) (psf_range ps ks) q).1⌋ + 1 ≤ (ks : ℤ) - 1)
        ∧ (0 ≤ ⌊(pixelIndexFloat ks (psf_range ps ks) (psf_range ps ks) q).2⌋
          ∧ ⌊(pixelIndexFloat ks (psf_range ps ks) (psf_range ps ks) q).2⌋ + 1 ≤ (ks : ℤ) - 1) := by
  intro r ps ks c hks hps hra q hq
  have hb := fwdPassed_bound hks hps hra q hq
  exact passed_index_bounds hks hps hb.1 hb.2

/-- C3 (witness): the first scenario sample lands at fractional indices
whose floor and floor-plus-one are inside `[0, 3]`. -/
theorem C3_witness :
    (0 ≤ ⌊(pixelIndexFloat 4 (psf_range 1 4) (psf_range 1 4) (1/2, 1/2)).1⌋
      ∧ ⌊(pixelIndexFloat 4 (psf_range 1 4) (psf_range 1 4) (1/2, 1/2)).1⌋ + 1 ≤ (4 : ℤ) - 1)
    ∧ (0 ≤ ⌊(pixelIndexFloat 4 (psf_range 1 4) (psf_range 1 4) (1/2, 1/2)).2⌋
      ∧ ⌊(pixelIndexFloat 4 (psf_range 1 4) (psf_range 1 4) (1/2, 1/2)).2⌋ + 1 ≤ (4 : ℤ) - 1) := by
  refine C3_mask_prevents_overflow scenarioRay 1 4 none (by norm_num) (by norm_num) ?_
    (1/2, 1/2) ?_
  · intro a ha
    simp [scenarioRay] at ha
    subst ha
    norm_num
  · rw [scenario_passed_eval.1]
    simp

/-- C7: degenerate inputs degrade to zero without error — an empty
sample set yields the all-zero grid, and a bundle whose weights are all
zero makes `forward_integral` return the all-zero grid, with the
`EPSILON`-guarded centroid denominator provably nonzero. -/
theorem C7_degenerate_zero :
    (∀ (ks : ℕ) (x_range y_range : ℚ × ℚ) (interpolate : Bool) (phase : List ℚ)
       (d : Option ℚ) (obliq : List ℚ) (wvln : ℚ), 2 ≤ ks →
       assign_points_to_pixels [] ks x_range y_range [] interpolate phase d obliq wvln
         = .ok (zerosGrid ks))
    ∧ (∀ (r : Ray1) (ps : ℚ) (ks : ℕ) (b : Bool), 2 ≤ ks → 0 < ps →
       (∀ a ∈ r.ra, a = 0) →
       r.ra.sum + EPSILON ≠ 0
       ∧ forward_integral r ps ks none b = .ok (zerosGrid ks)) := by
  constructor
  · intro ks xr yr interp phase d obliq wvln hks
    simp only [assign_points_to_pixels, if_neg (show ¬ ks = 1 by omega)]
    cases interp <;> simp [index_put, Bind.bind, Except.bind]
  · intro r ps ks b hks hps hra
    have hsum0 : r.ra.sum = 0 := List.sum_eq_zero hra
    refine ⟨by rw [hsum0]; norm_num [EPSILON], ?_⟩
    have hq0 := fwdPassed_all_zero ps ks none hra
    have hv0 := fwdRa_all_zero ps ks none hra
    have hR := psf_range_snd_pos hks hps
    have hb00 := passed_index_bounds hks hps
      (show |((0:ℚ), (0:ℚ)).1| < (psf_range ps ks).2 by simpa using hR)
      (show |((0:ℚ), (0:ℚ)).2| < (psf_range ps ks).2 by simpa using hR)
    simp only [pixelIndexFloat, normalizePoint] at hb00
    have hstage : ∀ (idxF : V2 → ℤ × ℤ) (valF : V2 → ℚ → ℚ) (g : Grid),
        inGrid ks (idxF (0, 0)) → (∀ p, valF p 0 = 0) →
        index_put ks g (((fwdPassed r ps ks none).map idxF).zip
          (List.zipWith valF (fwdPassed r ps ks none) (fwdRa r ps ks none))) = .ok g := by
      intro idxF valF g hidx hval
      apply index_put_zeros
      rintro ⟨ij, v⟩ hx
      constructor
      · have h1 := (List.of_mem_zip hx).1
        obtain ⟨q, hq, rfl⟩ := List.mem_map.1 h1
        rw [hq0 q hq]
        exact hidx
      · have h2 := (List.of_mem_zip hx).2
        obtain ⟨q, a, _, ha, rfl⟩ := exists_of_mem_zipWith h2
        show valF q a = 0
        rw [hv0 a ha]
        exact hval q
    simp only [forward_integral, assign_points_to_pixels,
      if_neg (show ¬ ks = 1 by omega), if_true, List.map_map, zipWith3_map_map]
    set Fm : V2 → V2 := (fun p : V2 => (p.1 * ((ks:ℚ) - 1), p.2 * ((ks:ℚ) - 1))) ∘
      normalizePoint (psf_range ps ks) (psf_range ps ks) with hFm
    set B : V2 → ℚ := (fun p : V2 => p.1 - (⌊p.1⌋ : ℚ)) ∘ Fm
    set C : V2 → ℚ := (fun p : V2 => p.2 - (⌊p.2⌋ : ℚ)) ∘ Fm
    have hin1 : inGrid ks (((fun p : V2 => (⌊p.1⌋, ⌊p.2⌋)) ∘ Fm) (0, 0)) := by
      simp only [hFm, Function.comp_apply, inGrid, normalizePoint]
      omega
    have hin4 : inGrid ks (((fun ij : ℤ × ℤ => (ij.1 + 1, ij.2 + 1)) ∘
        (fun p : V2 => (⌊p.1⌋, ⌊p.2⌋)) ∘ Fm) (0, 0)) := by
      simp only [hFm, Function.comp_apply, inGrid, normalizePoint]
      omega
    have hin2 : inGrid ks (((fun p : V2 => (⌊p.1⌋, ⌊p.2 + 1⌋)) ∘ Fm) (0, 0)) := by
      simp only [hFm, Function.comp_apply, inGrid, normalizePoint, Int.floor_add_one]
      omega
    have hin3 : inGrid ks (((fun p : V2 => (⌊p.1 + 1⌋, ⌊p.2⌋)) ∘ Fm) (0, 0)) := by
      simp only [hFm, Function.comp_apply, inGrid, normalizePoint, Int.floor_add_one]
      omega
    have e1 := hstage ((fun p : V2 => (⌊p.1⌋, ⌊p.2⌋)) ∘ Fm)
      (fun p a => (1 - B p) * (1 - C p) * a) (zerosGrid ks) hin1 (fun p => by ring)
    have e2 := hstage ((fun p : V2 => (⌊p.1⌋, ⌊p.2 + 1⌋)) ∘ Fm)
      (fun p a => (1 - B p) * C p * a) (zerosGrid ks) hin2 (fun p => by ring)
    have e3 := hstage ((fun p : V2 => (⌊p.1 + 1⌋, ⌊p.2⌋)) ∘ Fm)
      (fun p a => B p * (1 - C p) * a) (zerosGrid ks) hin3 (fun p => by ring)
    have e4 := hstage ((fun ij : ℤ × ℤ => (ij.1 + 1, ij.2 + 1)) ∘
        (fun p : V2 => (⌊p.1⌋, ⌊p.2⌋)) ∘ Fm)
      (fun p a => B p * C p * a) (zerosGrid ks) hin4 (fun p => by ring)
    simp only [Bind.bind, Except.bind, e1, e2, e3, e4]

/-- C7 (witness): the theorem applied to `ks = 4` and a two-sample
bundle with all-zero weights. -/
theorem C7_witness :
    assign_points_to_pixels [] 4 (psf_range 1 4) (psf_range 1 4) [] true [] none [] (589/1000)
      = .ok (zerosGrid 4)
    ∧ forward_integral ⟨[(3, -7, 0), (1, 2, 0)], [(0, 0, 1), (0, 0, 1)], [0, 0]⟩ 1 4 none false
      = .ok (zerosGrid 4) := by
  constructor
  · exact C7_degenerate_zero.1 4 (psf_range 1 4) (psf_range 1 4) true [] none [] (589/1000)
      (by norm_num)
  · refine (C7_degenerate_zero.2 ⟨[(3, -7, 0), (1, 2, 0)], [(0, 0, 1), (0, 0, 1)], [0, 0]⟩
      1 4 false (by norm_num) (by norm_num) ?_).2
    intro a ha
    simp at ha
    rcases ha with rfl | rfl <;> rfl

/-- C5: masking threshold behaviour — a shifted sample exactly at
distance `window_half_width` from the center along one axis gets weight
zero, and (with a reference center) appending such a boundary sample to
a bundle leaves the output grid unchanged; a shifted sample at distance
`window_half_width - 0.02*ps` (in bounds on the other axis) keeps its
nonzero weight. -/
theorem C5_mask_threshold :
    (∀ (r : Ray1) (ps : ℚ) (ks : ℕ) (c : V2) (i : ℕ) (w : ℚ) (s : V2),
      0 < ps → r.ra[i]? = some w → (fwdShift r (some c))[i]? = some s →
      (|s.1| = (psf_range ps ks).2 ∨ |s.2| = (psf_range ps ks).2) →
      (fwdRa r ps ks (some c))[i]? = some 0)
    ∧ (∀ (r : Ray1) (ps : ℚ) (ks : ℕ) (c : V2) (i : ℕ) (w : ℚ) (s : V2),
      0 < ps → r.ra[i]? = some w → (fwdShift r (some c))[i]? = some s →
      (|s.1| = (psf_range ps ks).2 - ps/50 ∧ |s.2| < (psf_range ps ks).2 - ps/100) →
      (fwdRa r ps ks (some c))[i]? = some w)
    ∧ (∀ (r : Ray1) (ps : ℚ) (ks : ℕ) (c : V2) (o0 d0 : V3) (a0 : ℚ) (b : Bool),
      2 ≤ ks → 0 < ps → r.ra.length = r.o.length →
      (|(neg2 o0).1 - c.1| = (psf_range ps ks).2 ∨ |(neg2 o0).2 - c.2| = (psf_range ps ks).2) →
      forward_integral (appendSample r o0 d0 a0) ps ks (some c) b
        = forward_integral r ps ks (some c) b) := by
  refine ⟨?_, ?_, fwd_append_boundary⟩
  · intro r ps ks c i w s hps hw hs hbd
    simp only [fwdRa, List.getElem?_zipWith, hw, hs]
    rcases hbd with h | h
    · rw [if_neg (show ¬ |s.1| < (psf_range ps ks).2 - ps/100 by
        rw [h]; exact not_lt.2 (by linarith))]
      simp
    · rw [if_neg (show ¬ |s.2| < (psf_range ps ks).2 - ps/100 by
        rw [h]; exact not_lt.2 (by linarith))]
      simp
  · intro r ps ks c i w s hps hw hs hbd
    simp only [fwdRa, List.getElem?_zipWith, hw, hs]
    rw [if_pos (show |s.1| < (psf_range ps ks).2 - ps/100 by rw [hbd.1]; linarith),
      if_pos hbd.2]
    simp

theorem C5_witness :
    (fwdRa ⟨[(-3/2, 0, 0)], [(0, 0, 1)], [1]⟩ 1 4 (some (0, 0)))[0]? = some 0
    ∧ (fwdRa ⟨[(-(37:ℚ)/25, 0, 0)], [(0, 0, 1)], [1/2]⟩ 1 4 (some (0, 0)))[0]? = some (1/2)
    ∧ forward_integral (appendSample offGridRay (-3/2, 0, 0) (0, 0, 1) (1/2)) 1 4
        (some (0, 0)) false
      = forward_integral offGridRay 1 4 (some (0, 0)) false := by
  refine ⟨?_, ?_, ?_⟩
  · refine C5_mask_threshold.1 _ 1 4 (0, 0) 0 1 (3/2, 0) (by norm_num) rfl ?_ ?_
    · simp only [fwdShift, fwdCenter, fwdPoints, neg2, List.map_cons, List.map_nil,
        List.getElem?_cons_zero]
      norm_num
    · left
      norm_num [psf_range, abs_of_pos]
  · refine C5_mask_threshold.2.1 _ 1 4 (0, 0) 0 (1/2) (37/25, 0) (by norm_num) rfl ?_ ?_
    · simp only [fwdShift, fwdCenter, fwdPoints, neg2, List.map_cons, List.map_nil,
        List.getElem?_cons_zero]
      norm_num
    · constructor
      · norm_num [psf_range, abs_of_pos]
      · norm_num [psf_range]
  · refine C5_mask_threshold.2.2 offGridRay 1 4 (0, 0) (-3/2, 0, 0) (0, 0, 1) (1/2) false
      (by norm_num) (by norm_num) rfl ?_
    left
    norm_num [neg2, psf_range, abs_of_pos]

/-- C6: per-point independence and order preservation — the multi-point
path of `forward_integral` equals, point for point and in input order,
the single-point pipeline run on each point's own samples alone. -/
theorem C6_per_point_independence :
    ∀ (N : ℕ) (r : RayN N) (ps : ℚ) (ks : ℕ) (c : Option V2) (b : Bool),
      forward_integralN r ps ks c b
      = exceptList ((List.finRange N).map
          (fun i => forward_integral (pointAt r i) ps ks c b)) := by
  intro N r ps ks c b
  simp only [forward_integralN, forward_integral]
  congr 1
  apply List.map_congr_left
  intro i _
  rw [pointAt_passed, pointAt_ra, pointAt_obliq]

end DeepLens
